import Mathlib

/-
Verification of the drawing routines in src/drawing.py.

Two parts are embedded:

1. The geometric core (`normalize_vector`, `orthogonal_vector`, the control
   points built by `draw_self_loop`) is modelled over the real numbers.
   Divisions whose denominator is exactly zero produce a non-finite value in
   the original numpy code; the embedding returns `none` in exactly those
   situations, and `some` of the computed vector otherwise.

2. The edge-routing routine (`graph_edges_weights`, `draw_graph_edges`) is
   modelled over exact rationals.  A graph is a list of edges in the
   library's native enumeration order, together with the membership test
   `edgeMem` used by the expression `reverse_edge in graph.edges`
   (for a directed graph this is list membership, for an undirected graph it
   also accepts the reversed orientation) and the numeric weight attribute.
   Each call to a drawing primitive is recorded as a `DrawEvent`; the
   routine additionally returns the final working set, so that removal from
   `edges_to_draw` is visible in the result.
-/

/-! ## Geometry (drawing.py lines 10-119), over ℝ -/

/-- The constant `EPSILON = 0.000001` of `orthogonal_vector`. -/
noncomputable def EPSILON : ℝ := 1 / 1000000

/-- `np.linalg.norm` of a 2-vector. -/
noncomputable def vector_norm (v : ℝ × ℝ) : ℝ :=
  Real.sqrt (v.1 ^ 2 + v.2 ^ 2)

open scoped Classical in
/-- `normalize_vector(vector, normalize_to) = vector * normalize_to / vector_norm`.
When `vector_norm vector = 0` the numpy division yields no finite vector;
this is modelled as `none`. -/
noncomputable def normalize_vector (vector : ℝ × ℝ) (normalize_to : ℝ) :
    Option (ℝ × ℝ) :=
  if vector_norm vector = 0 then none
  else some (vector.1 * normalize_to / vector_norm vector,
             vector.2 * normalize_to / vector_norm vector)

open scoped Classical in
/-- `orthogonal_vector(point, width, normalize_to)`:
`x = width`, `y = -x * point[0] / (point[1] + EPSILON)`, optionally rescaled.
When `point[1] + EPSILON = 0` the division yields no finite value (`none`). -/
noncomputable def orthogonal_vector (point : ℝ × ℝ) (width : ℝ)
    (normalize_to : Option ℝ) : Option (ℝ × ℝ) :=
  if point.2 + EPSILON = 0 then none
  else
    let x : ℝ := width
    let y : ℝ := -x * point.1 / (point.2 + EPSILON)
    let ort_vector : ℝ × ℝ := (x, y)
    match normalize_to with
    | none => some ort_vector
    | some n => normalize_vector ort_vector n

/-- The control points `verts` built by `draw_self_loop`:
`point_with_padding = padding * point`,
`ort_vector = orthogonal_vector(point, width, normalize_to=width)`,
`verts = [point, ort_vector + point_with_padding, -ort_vector + point_with_padding, point]`. -/
noncomputable def draw_self_loop_verts (point : ℝ × ℝ) (padding width : ℝ) :
    Option (List (ℝ × ℝ)) :=
  let point_with_padding : ℝ × ℝ := (padding * point.1, padding * point.2)
  match orthogonal_vector point width (some width) with
  | none => none
  | some ort_vector =>
      some [point,
            (ort_vector.1 + point_with_padding.1, ort_vector.2 + point_with_padding.2),
            (-ort_vector.1 + point_with_padding.1, -ort_vector.2 + point_with_padding.2),
            point]

/-! ## Edge routing (drawing.py lines 122-205), over ℚ -/

/-- The data of a networkx graph that `draw_graph_edges` consumes:
`edges` is the native enumeration of `graph.edges` (a list of ordered pairs),
`edgeMem` is the membership test `e in graph.edges`, and `weight` is the
numeric weight attribute `graph.edges[e]["weight"]`. -/
structure GraphModel (α : Type) where
  edges : List (α × α)
  edgeMem : α × α → Bool
  weight : α × α → ℚ

/-- One recorded call to a drawing primitive inside `draw_graph_edges`:
either `draw_self_loop(point=pos[edge[0]], linewidth=w)` or
`draw_graph_edge(..., edge, edge_weight, color, arc_radius)`. -/
inductive DrawEvent (α : Type) where
  | selfLoop (edge : α × α) (point : ℚ × ℚ) (linewidth : ℚ)
  | edgeDraw (edge : α × α) (weight : ℚ) (color : String) (arcRadius : ℚ)
  deriving DecidableEq

/-- The edge a draw event was issued for. -/
def DrawEvent.edge {α : Type} : DrawEvent α → α × α
  | .selfLoop e _ _ => e
  | .edgeDraw e _ _ _ => e

/-- `graph_edges_weights(graph) = {edge: graph.edges[edge]["weight"] for edge in graph.edges}`. -/
def graph_edges_weights {α : Type} (g : GraphModel α) : List ((α × α) × ℚ) :=
  g.edges.map (fun edge => (edge, g.weight edge))

/-- The dictionary access `edge_weights[edge]` on the dictionary built by
`graph_edges_weights` (every key looked up by `draw_graph_edges` is present). -/
def weightOf {α : Type} [DecidableEq α] (g : GraphModel α) (edge : α × α) : ℚ :=
  (List.lookup edge (graph_edges_weights g)).getD 0

/-- The `for edge in graph.edges` loop of `draw_graph_edges`, processing the
remaining enumeration `L` with current working set `edges_to_draw`.  Returns
the final working set and the chronological list of draw calls. -/
def draw_edges_loop {α : Type} [DecidableEq α] (g : GraphModel α) (pos : α → ℚ × ℚ) :
    List (α × α) → Finset (α × α) → Finset (α × α) × List (DrawEvent α)
  | [], edges_to_draw => (edges_to_draw, [])
  | edge :: rest, edges_to_draw =>
    if edge ∉ edges_to_draw then
      draw_edges_loop g pos rest edges_to_draw
    else if edge.1 = edge.2 then
      let r := draw_edges_loop g pos rest (edges_to_draw.erase edge)
      (r.1, DrawEvent.selfLoop edge (pos edge.1) (weightOf g edge) :: r.2)
    else
      let edges_to_draw1 := edges_to_draw.erase edge
      let reverse_edge : α × α := (edge.2, edge.1)
      if g.edgeMem reverse_edge ∧ reverse_edge ∈ edges_to_draw1 then
        let r := draw_edges_loop g pos rest (edges_to_draw1.erase reverse_edge)
        (r.1, DrawEvent.edgeDraw edge (weightOf g edge) "pink" (2 / 10) ::
              DrawEvent.edgeDraw reverse_edge (weightOf g edge) "lightblue" (1 / 10) :: r.2)
      else
        let r := draw_edges_loop g pos rest edges_to_draw1
        (r.1, DrawEvent.edgeDraw edge (weightOf g edge) "pink" (2 / 10) :: r.2)

/-- `draw_graph_edges(graph, pos, ax)`: working set initialised to
`set(graph.edges)`, then the loop over `graph.edges`. -/
def draw_graph_edges {α : Type} [DecidableEq α] (g : GraphModel α) (pos : α → ℚ × ℚ) :
    Finset (α × α) × List (DrawEvent α) :=
  draw_edges_loop g pos g.edges g.edges.toFinset

/-- How many of the recorded draw calls were issued for edge `e`. -/
def drawCount {α : Type} [DecidableEq α] (e : α × α) : List (DrawEvent α) → ℕ
  | [] => 0
  | ev :: rest => (if ev.edge = e then 1 else 0) + drawCount e rest

/-! ## Concrete instances used by the witnesses -/

/-- A position map for the concrete graphs below. -/
def exPos : ℕ → ℚ × ℚ := fun n => (n, 0)

/-- Directed graph with edges (0,1) of weight 1 and (1,0) of weight 5. -/
def exG1 : GraphModel ℕ where
  edges := [(0, 1), (1, 0)]
  edgeMem := fun e => decide (e ∈ [((0 : ℕ), (1 : ℕ)), (1, 0)])
  weight := fun e => if e = (0, 1) then 1 else 5

/-- Directed graph with edges (0,1) and (1,0), all weights 1. -/
def exG2 : GraphModel ℕ where
  edges := [(0, 1), (1, 0)]
  edgeMem := fun e => decide (e ∈ [((0 : ℕ), (1 : ℕ)), (1, 0)])
  weight := fun _ => 1

/-- Graph with the single self-loop (7,7) of weight 3. -/
def exG3 : GraphModel ℕ where
  edges := [(7, 7)]
  edgeMem := fun e => decide (e ∈ [((7 : ℕ), (7 : ℕ))])
  weight := fun _ => 3

/-- Directed graph with a bidirectional pair, a self-loop and a plain edge. -/
def exG4 : GraphModel ℕ where
  edges := [(0, 1), (1, 0), (2, 2), (3, 4)]
  edgeMem := fun e => decide (e ∈ [((0 : ℕ), (1 : ℕ)), (1, 0), (2, 2), (3, 4)])
  weight := fun _ => 1

/-- Undirected graph with edges {0,1} and the self-loop {2}: the edge list
stores one orientation per edge, while `edgeMem` also accepts the reversed
orientation, as `e in graph.edges` does for an undirected networkx graph. -/
def exG9 : GraphModel ℕ where
  edges := [(0, 1), (2, 2)]
  edgeMem := fun e =>
    decide (e ∈ [((0 : ℕ), (1 : ℕ)), (2, 2)] ∨ (e.2, e.1) ∈ [((0 : ℕ), (1 : ℕ)), (2, 2)])
  weight := fun _ => 1

/-! ## Basic facts about the geometry -/

lemma eps_pos : 0 < EPSILON := by norm_num [EPSILON]

lemma orthogonal_vector_unscaled (p : ℝ × ℝ) (w : ℝ) (hden : p.2 + EPSILON ≠ 0) :
    orthogonal_vector p w none = some (w, -w * p.1 / (p.2 + EPSILON)) := by
  simp [orthogonal_vector, hden]

lemma vector_norm_pos_of_fst (v : ℝ × ℝ) (h : v.1 ≠ 0) : 0 < vector_norm v := by
  have h1 : 0 < v.1 ^ 2 := lt_of_le_of_ne (sq_nonneg _) (Ne.symm (pow_ne_zero 2 h))
  have h2 : 0 < v.1 ^ 2 + v.2 ^ 2 := by nlinarith [sq_nonneg v.2]
  simpa [vector_norm] using Real.sqrt_pos.mpr h2

lemma normalize_vector_some (v : ℝ × ℝ) (n : ℝ) (h : vector_norm v ≠ 0) :
    normalize_vector v n = some (v.1 * n / vector_norm v, v.2 * n / vector_norm v) := by
  simp [normalize_vector, h]

lemma abs_snd_le_vector_norm (v : ℝ × ℝ) : |v.2| ≤ vector_norm v := by
  simp only [vector_norm]
  rw [← Real.sqrt_sq_eq_abs]
  exact Real.sqrt_le_sqrt (by nlinarith [sq_nonneg v.1])

lemma normalize_vector_norm (v : ℝ × ℝ) (n : ℝ)
    (hv : 0 < vector_norm v) (hn : 0 ≤ n) :
    vector_norm (v.1 * n / vector_norm v, v.2 * n / vector_norm v) = n := by
  have hc : 0 ≤ n / vector_norm v := div_nonneg hn hv.le
  have hN : Real.sqrt (v.1 ^ 2 + v.2 ^ 2) ≠ 0 := by
    simpa [vector_norm] using hv.ne'
  simp only [vector_norm] at hc ⊢
  have h1 : (v.1 * n / Real.sqrt (v.1 ^ 2 + v.2 ^ 2)) ^ 2 +
      (v.2 * n / Real.sqrt (v.1 ^ 2 + v.2 ^ 2)) ^ 2 =
      (n / Real.sqrt (v.1 ^ 2 + v.2 ^ 2)) ^ 2 * (v.1 ^ 2 + v.2 ^ 2) := by
    ring
  rw [h1, Real.sqrt_mul (sq_nonneg _), Real.sqrt_sq hc, div_mul_cancel₀ _ hN]

/-! ## Claims about the geometry -/

/-- Claim C5 (counterexample): the y-coordinate `-EPSILON` is approximately
zero (within `EPSILON` of zero), yet the denominator `y + EPSILON` is exactly
zero there, so the orthogonal-offset computation does divide by zero. -/
theorem c5_epsilon_counterexample :
    |((1 : ℝ), -EPSILON).2| ≤ EPSILON ∧
    ((1 : ℝ), -EPSILON).2 + EPSILON = 0 ∧
    orthogonal_vector ((1 : ℝ), -EPSILON) 1 none = none := by
  refine ⟨?_, by simp, ?_⟩
  · rw [show ((1 : ℝ), -EPSILON).2 = -EPSILON from rfl, abs_neg, abs_of_pos eps_pos]
  · simp [orthogonal_vector]

/-- Claim C5 (amended): for every input point `p` whose y-coordinate is not
exactly `-EPSILON` — in particular for every `p` lying exactly on the x-axis
(`y = 0`) — the constant `EPSILON = 1e-6` added to the denominator makes
`y + EPSILON` nonzero, and the orthogonal-offset computation divides by no
zero and returns the finite offset vector. -/
theorem c5_no_division_by_zero (p : ℝ × ℝ) (w : ℝ) (h : p.2 ≠ -EPSILON) :
    p.2 + EPSILON ≠ 0 ∧
    orthogonal_vector p w none = some (w, -w * p.1 / (p.2 + EPSILON)) := by
  have hden : p.2 + EPSILON ≠ 0 := fun hc => h (by linarith)
  exact ⟨hden, orthogonal_vector_unscaled p w hden⟩

/-- Witness for C5 (amended) at the on-axis point `(1, 0)`. -/
theorem c5_no_division_by_zero_witness :
    ((1 : ℝ), (0 : ℝ)).2 + EPSILON ≠ 0 ∧
    orthogonal_vector ((1 : ℝ), (0 : ℝ)) 1 none =
      some (1, -1 * ((1 : ℝ), (0 : ℝ)).1 / (((1 : ℝ), (0 : ℝ)).2 + EPSILON)) :=
  c5_no_division_by_zero (1, 0) 1 (by norm_num [EPSILON])

/-- Claim C6: for every point `p` with `|y| > EPSILON` (hence nonzero) and
every `width`, the unscaled orthogonal offset
`v = (width, -width * x / (y + EPSILON))` is defined and satisfies
`v ⬝ p ≈ 0` within floating tolerance: the dot product is exactly
`-(EPSILON * v.2)`, a quantity vanishing with `EPSILON`, and its absolute
value is at most `EPSILON * |v|`. -/
theorem c6_orthogonal_dot (p : ℝ × ℝ) (width : ℝ) (hy : EPSILON < |p.2|) :
    ∃ v : ℝ × ℝ,
      orthogonal_vector p width none = some v ∧
      v.1 * p.1 + v.2 * p.2 = -(EPSILON * v.2) ∧
      |v.1 * p.1 + v.2 * p.2| ≤ EPSILON * vector_norm v := by
  have hden : p.2 + EPSILON ≠ 0 := by
    intro hc
    have h2 : p.2 = -EPSILON := by linarith
    rw [h2, abs_neg, abs_of_pos eps_pos] at hy
    exact lt_irrefl _ hy
  refine ⟨(width, -width * p.1 / (p.2 + EPSILON)),
    orthogonal_vector_unscaled p width hden, ?_, ?_⟩
  · show width * p.1 + -width * p.1 / (p.2 + EPSILON) * p.2
      = -(EPSILON * (-width * p.1 / (p.2 + EPSILON)))
    field_simp
    ring
  · have hdot : (width, -width * p.1 / (p.2 + EPSILON)).1 * p.1 +
        (width, -width * p.1 / (p.2 + EPSILON)).2 * p.2
        = -(EPSILON * (-width * p.1 / (p.2 + EPSILON))) := by
      show width * p.1 + -width * p.1 / (p.2 + EPSILON) * p.2
        = -(EPSILON * (-width * p.1 / (p.2 + EPSILON)))
      field_simp
      ring
    rw [hdot, abs_neg, abs_mul, abs_of_pos eps_pos]
    have hle := abs_snd_le_vector_norm (width, -width * p.1 / (p.2 + EPSILON))
    have hfin := mul_le_mul_of_nonneg_left hle eps_pos.le
    exact hfin

/-- Witness for C6 at `p = (0, 1)`, `width = 1`. -/
theorem c6_orthogonal_dot_witness :
    ∃ v : ℝ × ℝ,
      orthogonal_vector ((0 : ℝ), (1 : ℝ)) 1 none = some v ∧
      v.1 * ((0 : ℝ), (1 : ℝ)).1 + v.2 * ((0 : ℝ), (1 : ℝ)).2 = -(EPSILON * v.2) ∧
      |v.1 * ((0 : ℝ), (1 : ℝ)).1 + v.2 * ((0 : ℝ), (1 : ℝ)).2| ≤
        EPSILON * vector_norm v :=
  c6_orthogonal_dot (0, 1) 1 (by rw [show ((0 : ℝ), (1 : ℝ)).2 = 1 from rfl]; norm_num [EPSILON])

/-- Claim C7: whenever the orthogonal offset is a well-defined nonzero vector
(denominator nonzero, `width ≠ 0`) and the target norm `n` is positive, the
rescaled offset has norm exactly `n` and is a positive scalar multiple of the
unscaled offset (direction preserved, magnitude replaced). -/
theorem c7_normalize_to_norm (p : ℝ × ℝ) (width n : ℝ)
    (hden : p.2 + EPSILON ≠ 0) (hw : width ≠ 0) (hn : 0 < n) :
    ∃ u v : ℝ × ℝ,
      orthogonal_vector p width none = some u ∧
      orthogonal_vector p width (some n) = some v ∧
      vector_norm v = n ∧
      ∃ c : ℝ, 0 < c ∧ v = (c * u.1, c * u.2) := by
  have hN : 0 < vector_norm (width, -width * p.1 / (p.2 + EPSILON)) :=
    vector_norm_pos_of_fst _ hw
  refine ⟨(width, -width * p.1 / (p.2 + EPSILON)),
    ((width, -width * p.1 / (p.2 + EPSILON)).1 * n /
       vector_norm (width, -width * p.1 / (p.2 + EPSILON)),
     (width, -width * p.1 / (p.2 + EPSILON)).2 * n /
       vector_norm (width, -width * p.1 / (p.2 + EPSILON))),
    orthogonal_vector_unscaled p width hden, ?_, ?_, ?_⟩
  · simp only [orthogonal_vector, if_neg hden]
    exact normalize_vector_some _ n hN.ne'
  · exact normalize_vector_norm _ n hN hn.le
  · refine ⟨n / vector_norm (width, -width * p.1 / (p.2 + EPSILON)),
      div_pos hn hN, ?_⟩
    rw [Prod.mk.injEq]
    constructor <;> ring

/-- Witness for C7 at `p = (0, 1)`, `width = 1`, `n = 2`. -/
theorem c7_normalize_to_norm_witness :
    ∃ u v : ℝ × ℝ,
      orthogonal_vector ((0 : ℝ), (1 : ℝ)) 1 none = some u ∧
      orthogonal_vector ((0 : ℝ), (1 : ℝ)) 1 (some 2) = some v ∧
      vector_norm v = 2 ∧
      ∃ c : ℝ, 0 < c ∧ v = (c * u.1, c * u.2) :=
  c7_normalize_to_norm (0, 1) 1 2 (by norm_num [EPSILON]) (by norm_num) (by norm_num)

/-- Claim C8: for every node position `p` (with well-defined geometry:
denominator nonzero and nonzero loop width) and every padding factor, the
self-loop routine builds its path from exactly the control points
`[p, padding*p + o, padding*p - o, p]`, where `o` is the orthogonal offset of
`p` rescaled to norm `width`; the path starts and ends at `p`, forming a
closed loop through the node's own position. -/
theorem c8_selfloop_control_points (p : ℝ × ℝ) (padding width : ℝ)
    (hden : p.2 + EPSILON ≠ 0) (hw : width ≠ 0) :
    ∃ o : ℝ × ℝ,
      orthogonal_vector p width (some width) = some o ∧
      draw_self_loop_verts p padding width =
        some [p, (padding * p.1 + o.1, padding * p.2 + o.2),
                 (padding * p.1 - o.1, padding * p.2 - o.2), p] ∧
      [p, (padding * p.1 + o.1, padding * p.2 + o.2),
          (padding * p.1 - o.1, padding * p.2 - o.2), p].head? = some p ∧
      [p, (padding * p.1 + o.1, padding * p.2 + o.2),
          (padding * p.1 - o.1, padding * p.2 - o.2), p].getLast? = some p := by
  have hN : 0 < vector_norm (width, -width * p.1 / (p.2 + EPSILON)) :=
    vector_norm_pos_of_fst _ hw
  have hosome : orthogonal_vector p width (some width) =
      some ((width, -width * p.1 / (p.2 + EPSILON)).1 * width /
              vector_norm (width, -width * p.1 / (p.2 + EPSILON)),
            (width, -width * p.1 / (p.2 + EPSILON)).2 * width /
              vector_norm (width, -width * p.1 / (p.2 + EPSILON))) := by
    simp only [orthogonal_vector, if_neg hden]
    exact normalize_vector_some _ width hN.ne'
  obtain ⟨o, ho⟩ : ∃ o, orthogonal_vector p width (some width) = some o := ⟨_, hosome⟩
  refine ⟨o, ho, ?_, rfl, rfl⟩
  simp only [draw_self_loop_verts, ho, Option.some.injEq, List.cons.injEq, Prod.mk.injEq]
  and_intros <;> first | rfl | ring_nf

/-- Witness for C8 at `p = (0, 1)`, `padding = 3/2`, `width = 1`. -/
theorem c8_selfloop_control_points_witness :
    ∃ o : ℝ × ℝ,
      orthogonal_vector ((0 : ℝ), (1 : ℝ)) 1 (some 1) = some o ∧
      draw_self_loop_verts ((0 : ℝ), (1 : ℝ)) (3 / 2) 1 =
        some [((0 : ℝ), (1 : ℝ)),
              (3 / 2 * ((0 : ℝ), (1 : ℝ)).1 + o.1, 3 / 2 * ((0 : ℝ), (1 : ℝ)).2 + o.2),
              (3 / 2 * ((0 : ℝ), (1 : ℝ)).1 - o.1, 3 / 2 * ((0 : ℝ), (1 : ℝ)).2 - o.2),
              ((0 : ℝ), (1 : ℝ))] ∧
      [((0 : ℝ), (1 : ℝ)),
       (3 / 2 * ((0 : ℝ), (1 : ℝ)).1 + o.1, 3 / 2 * ((0 : ℝ), (1 : ℝ)).2 + o.2),
       (3 / 2 * ((0 : ℝ), (1 : ℝ)).1 - o.1, 3 / 2 * ((0 : ℝ), (1 : ℝ)).2 - o.2),
       ((0 : ℝ), (1 : ℝ))].head? = some ((0 : ℝ), (1 : ℝ)) ∧
      [((0 : ℝ), (1 : ℝ)),
       (3 / 2 * ((0 : ℝ), (1 : ℝ)).1 + o.1, 3 / 2 * ((0 : ℝ), (1 : ℝ)).2 + o.2),
       (3 / 2 * ((0 : ℝ), (1 : ℝ)).1 - o.1, 3 / 2 * ((0 : ℝ), (1 : ℝ)).2 - o.2),
       ((0 : ℝ), (1 : ℝ))].getLast? = some ((0 : ℝ), (1 : ℝ)) :=
  c8_selfloop_control_points (0, 1) (3 / 2) 1 (by norm_num [EPSILON]) (by norm_num)

/-- Claim C10: the vector-rescaling routine is well-defined only for vectors
of nonzero norm: for every vector of zero norm (in particular the zero
vector) it divides by zero.  For loop width `0` the orthogonal offset is the
zero vector `(0, 0)`, and the rescaling that `draw_self_loop` always requests
(`normalize_to = width`) then divides by a zero norm, so the self-loop path
has no well-defined finite control points. -/
theorem c10_zero_width_undefined (p : ℝ × ℝ) (padding n : ℝ) (v : ℝ × ℝ)
    (hden : p.2 + EPSILON ≠ 0) (hv : vector_norm v = 0) :
    normalize_vector v n = none ∧
    orthogonal_vector p 0 none = some (0, 0) ∧
    orthogonal_vector p 0 (some 0) = none ∧
    draw_self_loop_verts p padding 0 = none := by
  have h1 : ∀ (w : ℝ × ℝ) (m : ℝ), vector_norm w = 0 → normalize_vector w m = none :=
    fun w m h => by simp [normalize_vector, h]
  have hz : vector_norm ((0 : ℝ), (0 : ℝ)) = 0 := by
    simp [vector_norm]
  have h3 : orthogonal_vector p 0 none = some (0, 0) := by
    rw [orthogonal_vector_unscaled p 0 hden]
    norm_num
  have h4 : orthogonal_vector p 0 (some 0) = none := by
    simp only [orthogonal_vector, if_neg hden]
    have he : ((0 : ℝ), -(0 : ℝ) * p.1 / (p.2 + EPSILON)) = ((0 : ℝ), (0 : ℝ)) := by
      norm_num
    rw [he]
    exact h1 _ _ hz
  have h5 : draw_self_loop_verts p padding 0 = none := by
    simp [draw_self_loop_verts, h4]
  exact ⟨h1 v n hv, h3, h4, h5⟩

/-- Witness for C10 at `p = (0, 1)`, `padding = 3/2`, `n = 1`, `v = (0, 0)`. -/
theorem c10_zero_width_undefined_witness :
    normalize_vector ((0 : ℝ), (0 : ℝ)) 1 = none ∧
    orthogonal_vector ((0 : ℝ), (1 : ℝ)) 0 none = some (0, 0) ∧
    orthogonal_vector ((0 : ℝ), (1 : ℝ)) 0 (some 0) = none ∧
    draw_self_loop_verts ((0 : ℝ), (1 : ℝ)) (3 / 2) 0 = none :=
  c10_zero_width_undefined (0, 1) (3 / 2) 1 (0, 0) (by norm_num [EPSILON])
    (by simp [vector_norm])

/-! ## Basic facts about the edge-routing loop -/

lemma draw_edges_loop_skip {α : Type} [DecidableEq α] (g : GraphModel α)
    (pos : α → ℚ × ℚ) (edge : α × α) (rest : List (α × α)) (ws : Finset (α × α))
    (h : edge ∉ ws) :
    draw_edges_loop g pos (edge :: rest) ws = draw_edges_loop g pos rest ws := by
  simp [draw_edges_loop, h]

lemma draw_edges_loop_self {α : Type} [DecidableEq α] (g : GraphModel α)
    (pos : α → ℚ × ℚ) (edge : α × α) (rest : List (α × α)) (ws : Finset (α × α))
    (h1 : edge ∈ ws) (h2 : edge.1 = edge.2) :
    draw_edges_loop g pos (edge :: rest) ws =
      ((draw_edges_loop g pos rest (ws.erase edge)).1,
       DrawEvent.selfLoop edge (pos edge.1) (weightOf g edge) ::
         (draw_edges_loop g pos rest (ws.erase edge)).2) := by
  simp [draw_edges_loop, h1, h2]

lemma draw_edges_loop_pair {α : Type} [DecidableEq α] (g : GraphModel α)
    (pos : α → ℚ × ℚ) (edge : α × α) (rest : List (α × α)) (ws : Finset (α × α))
    (h1 : edge ∈ ws) (h2 : ¬edge.1 = edge.2)
    (h3 : g.edgeMem (edge.2, edge.1) = true)
    (h4 : (edge.2, edge.1) ∈ ws.erase edge) :
    draw_edges_loop g pos (edge :: rest) ws =
      ((draw_edges_loop g pos rest ((ws.erase edge).erase (edge.2, edge.1))).1,
       DrawEvent.edgeDraw edge (weightOf g edge) "pink" (2 / 10) ::
       DrawEvent.edgeDraw (edge.2, edge.1) (weightOf g edge) "lightblue" (1 / 10) ::
         (draw_edges_loop g pos rest ((ws.erase edge).erase (edge.2, edge.1))).2) := by
  simp [draw_edges_loop, h1, h2, h3, h4]

lemma draw_edges_loop_single {α : Type} [DecidableEq α] (g : GraphModel α)
    (pos : α → ℚ × ℚ) (edge : α × α) (rest : List (α × α)) (ws : Finset (α × α))
    (h1 : edge ∈ ws) (h2 : ¬edge.1 = edge.2)
    (h34 : ¬(g.edgeMem (edge.2, edge.1) = true ∧ (edge.2, edge.1) ∈ ws.erase edge)) :
    draw_edges_loop g pos (edge :: rest) ws =
      ((draw_edges_loop g pos rest (ws.erase edge)).1,
       DrawEvent.edgeDraw edge (weightOf g edge) "pink" (2 / 10) ::
         (draw_edges_loop g pos rest (ws.erase edge)).2) := by
  simp only [draw_edges_loop, h1, not_true_eq_false, if_false, if_neg h2, if_neg h34]

lemma draw_edges_loop_fst_subset {α : Type} [DecidableEq α] (g : GraphModel α)
    (pos : α → ℚ × ℚ) :
    ∀ (L : List (α × α)) (ws : Finset (α × α)),
      (draw_edges_loop g pos L ws).1 ⊆ ws := by
  intro L
  induction L with
  | nil => intro ws; exact Finset.Subset.refl ws
  | cons edge rest ih =>
    intro ws
    by_cases h1 : edge ∈ ws
    · by_cases h2 : edge.1 = edge.2
      · rw [draw_edges_loop_self g pos edge rest ws h1 h2]
        exact (ih _).trans (Finset.erase_subset _ _)
      · by_cases h34 : g.edgeMem (edge.2, edge.1) = true ∧ (edge.2, edge.1) ∈ ws.erase edge
        · rw [draw_edges_loop_pair g pos edge rest ws h1 h2 h34.1 h34.2]
          exact (ih _).trans ((Finset.erase_subset _ _).trans (Finset.erase_subset _ _))
        · rw [draw_edges_loop_single g pos edge rest ws h1 h2 h34]
          exact (ih _).trans (Finset.erase_subset _ _)
    · rw [draw_edges_loop_skip g pos edge rest ws h1]
      exact ih ws

lemma draw_edges_loop_fst_not_mem {α : Type} [DecidableEq α] (g : GraphModel α)
    (pos : α → ℚ × ℚ) :
    ∀ (L : List (α × α)) (ws : Finset (α × α)) (e : α × α),
      e ∈ L → e ∉ (draw_edges_loop g pos L ws).1 := by
  intro L
  induction L with
  | nil => intro ws e he; exact absurd he (List.not_mem_nil e)
  | cons edge rest ih =>
    intro ws e he
    by_cases h1 : edge ∈ ws
    · by_cases h2 : edge.1 = edge.2
      · rw [draw_edges_loop_self g pos edge rest ws h1 h2]
        rcases List.mem_cons.mp he with he' | he'
        · subst he'
          intro hc
          exact Finset.not_mem_erase e ws (draw_edges_loop_fst_subset g pos rest _ hc)
        · exact ih _ e he'
      · by_cases h34 : g.edgeMem (edge.2, edge.1) = true ∧ (edge.2, edge.1) ∈ ws.erase edge
        · rw [draw_edges_loop_pair g pos edge rest ws h1 h2 h34.1 h34.2]
          rcases List.mem_cons.mp he with he' | he'
          · subst he'
            intro hc
            have hc1 := draw_edges_loop_fst_subset g pos rest _ hc
            exact Finset.not_mem_erase e ws ((Finset.erase_subset _ _) hc1)
          · exact ih _ e he'
        · rw [draw_edges_loop_single g pos edge rest ws h1 h2 h34]
          rcases List.mem_cons.mp he with he' | he'
          · subst he'
            intro hc
            exact Finset.not_mem_erase e ws (draw_edges_loop_fst_subset g pos rest _ hc)
          · exact ih _ e he'
    · rw [draw_edges_loop_skip g pos edge rest ws h1]
      rcases List.mem_cons.mp he with he' | he'
      · subst he'
        intro hc
        exact h1 (draw_edges_loop_fst_subset g pos rest ws hc)
      · exact ih ws e he'

lemma drawCount_cons {α : Type} [DecidableEq α] (e : α × α) (ev : DrawEvent α)
    (l : List (DrawEvent α)) :
    drawCount e (ev :: l) = (if ev.edge = e then 1 else 0) + drawCount e l := rfl

lemma draw_edges_loop_count_zero {α : Type} [DecidableEq α] (g : GraphModel α)
    (pos : α → ℚ × ℚ) :
    ∀ (L : List (α × α)) (ws : Finset (α × α)) (e : α × α),
      e ∉ ws → drawCount e (draw_edges_loop g pos L ws).2 = 0 := by
  intro L
  induction L with
  | nil => intro ws e _; rfl
  | cons edge rest ih =>
    intro ws e he
    by_cases h1 : edge ∈ ws
    · have hee : edge ≠ e := fun hc => he (hc ▸ h1)
      have he1 : e ∉ ws.erase edge := fun hc => he (Finset.erase_subset _ _ hc)
      by_cases h2 : edge.1 = edge.2
      · rw [draw_edges_loop_self g pos edge rest ws h1 h2, drawCount_cons]
        simp only [DrawEvent.edge, if_neg hee, zero_add]
        exact ih _ e he1
      · by_cases h34 : g.edgeMem (edge.2, edge.1) = true ∧ (edge.2, edge.1) ∈ ws.erase edge
        · rw [draw_edges_loop_pair g pos edge rest ws h1 h2 h34.1 h34.2,
            drawCount_cons, drawCount_cons]
          have hre : (edge.2, edge.1) ≠ e := fun hc =>
            he (hc ▸ Finset.erase_subset _ _ h34.2)
          have he2 : e ∉ (ws.erase edge).erase (edge.2, edge.1) := fun hc =>
            he1 (Finset.erase_subset _ _ hc)
          simp only [DrawEvent.edge, if_neg hee, if_neg hre, zero_add]
          exact ih _ e he2
        · rw [draw_edges_loop_single g pos edge rest ws h1 h2 h34, drawCount_cons]
          simp only [DrawEvent.edge, if_neg hee, zero_add]
          exact ih _ e he1
    · rw [draw_edges_loop_skip g pos edge rest ws h1]
      exact ih ws e he

lemma draw_edges_loop_count_one {α : Type} [DecidableEq α] (g : GraphModel α)
    (pos : α → ℚ × ℚ) :
    ∀ (L : List (α × α)) (ws : Finset (α × α)) (e : α × α),
      e ∈ L → e ∈ ws → drawCount e (draw_edges_loop g pos L ws).2 = 1 := by
  intro L
  induction L with
  | nil => intro ws e he; exact absurd he (List.not_mem_nil e)
  | cons edge rest ih =>
    intro ws e he hews
    by_cases h1 : edge ∈ ws
    · by_cases h2 : edge.1 = edge.2
      · rw [draw_edges_loop_self g pos edge rest ws h1 h2, drawCount_cons]
        by_cases heq : edge = e
        · subst heq
          rw [draw_edges_loop_count_zero g pos rest _ edge (Finset.not_mem_erase edge ws)]
          simp [DrawEvent.edge]
        · simp only [DrawEvent.edge, if_neg heq, zero_add]
          have he' : e ∈ rest := (List.mem_cons.mp he).resolve_left
            (fun hc => heq (hc.symm))
          exact ih _ e he' (Finset.mem_erase.mpr ⟨fun hc => heq hc.symm, hews⟩)
      · by_cases h34 : g.edgeMem (edge.2, edge.1) = true ∧ (edge.2, edge.1) ∈ ws.erase edge
        · rw [draw_edges_loop_pair g pos edge rest ws h1 h2 h34.1 h34.2,
            drawCount_cons, drawCount_cons]
          by_cases heq : edge = e
          · subst heq
            have hre : (edge.2, edge.1) ≠ edge := fun hc =>
              (Finset.mem_erase.mp h34.2).1 hc
            have hout : edge ∉ (ws.erase edge).erase (edge.2, edge.1) := fun hc =>
              Finset.not_mem_erase edge ws (Finset.erase_subset _ _ hc)
            rw [draw_edges_loop_count_zero g pos rest _ edge hout]
            simp [DrawEvent.edge, hre]
          · by_cases hrq : (edge.2, edge.1) = e
            · have hout : e ∉ (ws.erase edge).erase (edge.2, edge.1) := fun hc =>
                (Finset.mem_erase.mp hc).1 hrq.symm
              rw [draw_edges_loop_count_zero g pos rest _ e hout]
              simp [DrawEvent.edge, heq, hrq]
            · simp only [DrawEvent.edge, if_neg heq, if_neg hrq, zero_add]
              have he' : e ∈ rest := (List.mem_cons.mp he).resolve_left
                (fun hc => heq (hc.symm))
              have hin : e ∈ (ws.erase edge).erase (edge.2, edge.1) :=
                Finset.mem_erase.mpr ⟨fun hc => hrq hc.symm,
                  Finset.mem_erase.mpr ⟨fun hc => heq hc.symm, hews⟩⟩
              exact ih _ e he' hin
        · rw [draw_edges_loop_single g pos edge rest ws h1 h2 h34, drawCount_cons]
          by_cases heq : edge = e
          · subst heq
            rw [draw_edges_loop_count_zero g pos rest _ edge (Finset.not_mem_erase edge ws)]
            simp [DrawEvent.edge]
          · simp only [DrawEvent.edge, if_neg heq, zero_add]
            have he' : e ∈ rest := (List.mem_cons.mp he).resolve_left
              (fun hc => heq (hc.symm))
            exact ih _ e he' (Finset.mem_erase.mpr ⟨fun hc => heq hc.symm, hews⟩)
    · have heq : edge ≠ e := fun hc => h1 (hc ▸ hews)
      rw [draw_edges_loop_skip g pos edge rest ws h1]
      have he' : e ∈ rest := (List.mem_cons.mp he).resolve_left
        (fun hc => heq (hc.symm))
      exact ih ws e he' hews

lemma draw_edges_loop_selfloop_form {α : Type} [DecidableEq α] (g : GraphModel α)
    (pos : α → ℚ × ℚ) :
    ∀ (L : List (α × α)) (ws : Finset (α × α)) (ev : DrawEvent α),
      ev ∈ (draw_edges_loop g pos L ws).2 →
      (DrawEvent.edge ev).1 = (DrawEvent.edge ev).2 →
      ev = DrawEvent.selfLoop (DrawEvent.edge ev) (pos (DrawEvent.edge ev).1)
             (weightOf g (DrawEvent.edge ev)) := by
  intro L
  induction L with
  | nil => intro ws ev hev; exact absurd hev (List.not_mem_nil ev)
  | cons edge rest ih =>
    intro ws ev hev hself
    by_cases h1 : edge ∈ ws
    · by_cases h2 : edge.1 = edge.2
      · rw [draw_edges_loop_self g pos edge rest ws h1 h2] at hev
        rcases List.mem_cons.mp hev with hev' | hev'
        · subst hev'
          rfl
        · exact ih _ ev hev' hself
      · by_cases h34 : g.edgeMem (edge.2, edge.1) = true ∧ (edge.2, edge.1) ∈ ws.erase edge
        · rw [draw_edges_loop_pair g pos edge rest ws h1 h2 h34.1 h34.2] at hev
          rcases List.mem_cons.mp hev with hev' | hev'
          · subst hev'
            exact absurd hself h2
          · rcases List.mem_cons.mp hev' with hev'' | hev''
            · subst hev''
              exact absurd hself.symm h2
            · exact ih _ ev hev'' hself
        · rw [draw_edges_loop_single g pos edge rest ws h1 h2 h34] at hev
          rcases List.mem_cons.mp hev with hev' | hev'
          · subst hev'
            exact absurd hself h2
          · exact ih _ ev hev' hself
    · rw [draw_edges_loop_skip g pos edge rest ws h1] at hev
      exact ih ws ev hev hself

lemma draw_edges_loop_event_edge_mem {α : Type} [DecidableEq α] (g : GraphModel α)
    (pos : α → ℚ × ℚ) :
    ∀ (L : List (α × α)) (ws : Finset (α × α)),
      (∀ x ∈ L, x ∈ g.edges) → ws ⊆ g.edges.toFinset →
      ∀ ev ∈ (draw_edges_loop g pos L ws).2, DrawEvent.edge ev ∈ g.edges := by
  intro L
  induction L with
  | nil => intro ws _ _ ev hev; exact absurd hev (List.not_mem_nil ev)
  | cons edge rest ih =>
    intro ws hL hws ev hev
    have hL' : ∀ x ∈ rest, x ∈ g.edges := fun x hx => hL x (List.mem_cons_of_mem _ hx)
    have hedge : edge ∈ g.edges := hL edge (List.mem_cons_self _ _)
    by_cases h1 : edge ∈ ws
    · by_cases h2 : edge.1 = edge.2
      · rw [draw_edges_loop_self g pos edge rest ws h1 h2] at hev
        rcases List.mem_cons.mp hev with hev' | hev'
        · subst hev'
          exact hedge
        · exact ih _ hL' ((Finset.erase_subset _ _).trans hws) ev hev'
      · by_cases h34 : g.edgeMem (edge.2, edge.1) = true ∧ (edge.2, edge.1) ∈ ws.erase edge
        · rw [draw_edges_loop_pair g pos edge rest ws h1 h2 h34.1 h34.2] at hev
          rcases List.mem_cons.mp hev with hev' | hev'
          · subst hev'
            exact hedge
          · rcases List.mem_cons.mp hev' with hev'' | hev''
            · subst hev''
              have : (edge.2, edge.1) ∈ g.edges.toFinset :=
                hws (Finset.erase_subset _ _ h34.2)
              exact List.mem_toFinset.mp this
            · exact ih _ hL'
                (((Finset.erase_subset _ _).trans (Finset.erase_subset _ _)).trans hws)
                ev hev''
        · rw [draw_edges_loop_single g pos edge rest ws h1 h2 h34] at hev
          rcases List.mem_cons.mp hev with hev' | hev'
          · subst hev'
            exact hedge
          · exact ih _ hL' ((Finset.erase_subset _ _).trans hws) ev hev'
    · rw [draw_edges_loop_skip g pos edge rest ws h1] at hev
      exact ih ws hL' hws ev hev

lemma draw_edges_loop_undirected_form {α : Type} [DecidableEq α] (g : GraphModel α)
    (pos : α → ℚ × ℚ)
    (hrev : ∀ x y : α, (x, y) ∈ g.edges → (y, x) ∈ g.edges → x = y) :
    ∀ (L : List (α × α)) (ws : Finset (α × α)),
      (∀ x ∈ L, x ∈ g.edges) → ws ⊆ g.edges.toFinset →
      ∀ ev ∈ (draw_edges_loop g pos L ws).2,
        (DrawEvent.edge ev).1 ≠ (DrawEvent.edge ev).2 →
        ev = DrawEvent.edgeDraw (DrawEvent.edge ev) (weightOf g (DrawEvent.edge ev))
               "pink" (2 / 10) := by
  intro L
  induction L with
  | nil => intro ws _ _ ev hev; exact absurd hev (List.not_mem_nil ev)
  | cons edge rest ih =>
    intro ws hL hws ev hev hne
    have hL' : ∀ x ∈ rest, x ∈ g.edges := fun x hx => hL x (List.mem_cons_of_mem _ hx)
    have hedge : edge ∈ g.edges := hL edge (List.mem_cons_self _ _)
    by_cases h1 : edge ∈ ws
    · by_cases h2 : edge.1 = edge.2
      · rw [draw_edges_loop_self g pos edge rest ws h1 h2] at hev
        rcases List.mem_cons.mp hev with hev' | hev'
        · subst hev'
          exact absurd h2 hne
        · exact ih _ hL' ((Finset.erase_subset _ _).trans hws) ev hev' hne
      · by_cases h34 : g.edgeMem (edge.2, edge.1) = true ∧ (edge.2, edge.1) ∈ ws.erase edge
        · exfalso
          have hrevmem : (edge.2, edge.1) ∈ g.edges :=
            List.mem_toFinset.mp (hws (Finset.erase_subset _ _ h34.2))
          have hedge' : (edge.1, edge.2) ∈ g.edges := hedge
          exact h2 (hrev edge.1 edge.2 hedge' hrevmem)
        · rw [draw_edges_loop_single g pos edge rest ws h1 h2 h34] at hev
          rcases List.mem_cons.mp hev with hev' | hev'
          · subst hev'
            rfl
          · exact ih _ hL' ((Finset.erase_subset _ _).trans hws) ev hev' hne
    · rw [draw_edges_loop_skip g pos edge rest ws h1] at hev
      exact ih ws hL' hws ev hev hne

lemma draw_edges_loop_pair_mem {α : Type} [DecidableEq α] (g : GraphModel α)
    (pos : α → ℚ × ℚ) (a b : α) (hne : a ≠ b)
    (hmemB : g.edgeMem (b, a) = true) :
    ∀ (L : List (α × α)) (ws : Finset (α × α)), L.Nodup →
      [(a, b), (b, a)].Sublist L → (a, b) ∈ ws → (b, a) ∈ ws →
      DrawEvent.edgeDraw (a, b) (weightOf g (a, b)) "pink" (2 / 10)
          ∈ (draw_edges_loop g pos L ws).2 ∧
      DrawEvent.edgeDraw (b, a) (weightOf g (a, b)) "lightblue" (1 / 10)
          ∈ (draw_edges_loop g pos L ws).2 := by
  intro L
  induction L with
  | nil =>
    intro ws _ hsub
    exact absurd (List.sublist_nil.mp hsub) (by simp)
  | cons edge rest ih =>
    intro ws hnd hsub haws hbws
    have hnd' : rest.Nodup := (List.nodup_cons.mp hnd).2
    have hedge_notin : edge ∉ rest := (List.nodup_cons.mp hnd).1
    cases hsub with
    | cons₂ hsub' =>
      -- edge = (a, b); the pair branch fires right here
      have hba_ne : ((b, a) : α × α) ≠ (a, b) := fun hc => hne (congrArg Prod.snd hc)
      have h2 : ¬((a, b) : α × α).1 = ((a, b) : α × α).2 := hne
      have h4 : ((b, a) : α × α) ∈ ws.erase (a, b) :=
        Finset.mem_erase.mpr ⟨hba_ne, hbws⟩
      rw [draw_edges_loop_pair g pos (a, b) rest ws haws h2 hmemB h4]
      exact ⟨List.mem_cons_self _ _,
        List.mem_cons_of_mem _ (List.mem_cons_self _ _)⟩
    | cons x hsub' =>
      -- the pair lives in `rest`
      have hab_rest : ((a, b) : α × α) ∈ rest := hsub'.subset (by simp)
      have hba_rest : ((b, a) : α × α) ∈ rest := hsub'.subset (by simp)
      have hea : edge ≠ (a, b) := fun hc => hedge_notin (hc ▸ hab_rest)
      have heb : edge ≠ (b, a) := fun hc => hedge_notin (hc ▸ hba_rest)
      by_cases h1 : edge ∈ ws
      · by_cases h2 : edge.1 = edge.2
        · rw [draw_edges_loop_self g pos edge rest ws h1 h2]
          have ha' : ((a, b) : α × α) ∈ ws.erase edge :=
            Finset.mem_erase.mpr ⟨fun hc => hea hc.symm, haws⟩
          have hb' : ((b, a) : α × α) ∈ ws.erase edge :=
            Finset.mem_erase.mpr ⟨fun hc => heb hc.symm, hbws⟩
          obtain ⟨hp, hl⟩ := ih _ hnd' hsub' ha' hb'
          exact ⟨List.mem_cons_of_mem _ hp, List.mem_cons_of_mem _ hl⟩
        · by_cases h34 : g.edgeMem (edge.2, edge.1) = true ∧ (edge.2, edge.1) ∈ ws.erase edge
          · rw [draw_edges_loop_pair g pos edge rest ws h1 h2 h34.1 h34.2]
            have har : ((a, b) : α × α) ≠ (edge.2, edge.1) := by
              intro hc
              apply heb
              have h6 : a = edge.2 := congrArg Prod.fst hc
              have h7 : b = edge.1 := congrArg Prod.snd hc
              exact Prod.ext_iff.mpr ⟨h7.symm, h6.symm⟩
            have hbr : ((b, a) : α × α) ≠ (edge.2, edge.1) := by
              intro hc
              apply hea
              have h6 : b = edge.2 := congrArg Prod.fst hc
              have h7 : a = edge.1 := congrArg Prod.snd hc
              exact Prod.ext_iff.mpr ⟨h7.symm, h6.symm⟩
            have ha' : ((a, b) : α × α) ∈ (ws.erase edge).erase (edge.2, edge.1) :=
              Finset.mem_erase.mpr ⟨har,
                Finset.mem_erase.mpr ⟨fun hc => hea hc.symm, haws⟩⟩
            have hb' : ((b, a) : α × α) ∈ (ws.erase edge).erase (edge.2, edge.1) :=
              Finset.mem_erase.mpr ⟨hbr,
                Finset.mem_erase.mpr ⟨fun hc => heb hc.symm, hbws⟩⟩
            obtain ⟨hp, hl⟩ := ih _ hnd' hsub' ha' hb'
            exact ⟨List.mem_cons_of_mem _ (List.mem_cons_of_mem _ hp),
              List.mem_cons_of_mem _ (List.mem_cons_of_mem _ hl)⟩
          · rw [draw_edges_loop_single g pos edge rest ws h1 h2 h34]
            have ha' : ((a, b) : α × α) ∈ ws.erase edge :=
              Finset.mem_erase.mpr ⟨fun hc => hea hc.symm, haws⟩
            have hb' : ((b, a) : α × α) ∈ ws.erase edge :=
              Finset.mem_erase.mpr ⟨fun hc => heb hc.symm, hbws⟩
            obtain ⟨hp, hl⟩ := ih _ hnd' hsub' ha' hb'
            exact ⟨List.mem_cons_of_mem _ hp, List.mem_cons_of_mem _ hl⟩
      · rw [draw_edges_loop_skip g pos edge rest ws h1]
        exact ih ws hnd' hsub' haws hbws

/-! ## Claims about the edge routing -/

/-- Claim C1 (code divergence, evaluated at a failing input): in the graph
`exG1` with `weights[(0,1)] = 1` and `weights[(1,0)] = 5`, the reverse edge
`(1,0)` is rendered with line width `1` — the weight-lookup entry of the
forward edge `(0,1)` — and not with its own entry `5`, because line 198 of
drawing.py passes `edge_weights[edge]` instead of
`edge_weights[reverse_edge]`. -/
theorem c1_reverse_edge_wrong_weight :
    (draw_graph_edges exG1 exPos).2 =
      [DrawEvent.edgeDraw (0, 1) (weightOf exG1 (0, 1)) "pink" (2 / 10),
       DrawEvent.edgeDraw (1, 0) (weightOf exG1 (0, 1)) "lightblue" (1 / 10)] ∧
    weightOf exG1 (0, 1) = 1 ∧
    weightOf exG1 (1, 0) = 5 ∧
    weightOf exG1 (0, 1) ≠ weightOf exG1 (1, 0) :=
  ⟨rfl, by decide, by decide, by decide⟩

/-- Claim C2: for a directed graph (edge membership coincides with the edge
enumeration) containing both `(a,b)` and `(b,a)` with `a ≠ b`, where `(a,b)`
is enumerated first, each of the two edges is drawn exactly once and is
absent from the working set afterwards; the first-enumerated edge is drawn
with color "pink" and curvature radius 0.2 and its reverse with color
"lightblue" and curvature radius 0.1. -/
theorem c2_bidirectional_pair_styles {α : Type} [DecidableEq α]
    (g : GraphModel α) (pos : α → ℚ × ℚ) (a b : α) (hne : a ≠ b)
    (hdi : ∀ e : α × α, g.edgeMem e = true ↔ e ∈ g.edges)
    (hnd : g.edges.Nodup)
    (hsub : [(a, b), (b, a)].Sublist g.edges) :
    drawCount (a, b) (draw_graph_edges g pos).2 = 1 ∧
    drawCount (b, a) (draw_graph_edges g pos).2 = 1 ∧
    DrawEvent.edgeDraw (a, b) (weightOf g (a, b)) "pink" (2 / 10)
        ∈ (draw_graph_edges g pos).2 ∧
    DrawEvent.edgeDraw (b, a) (weightOf g (a, b)) "lightblue" (1 / 10)
        ∈ (draw_graph_edges g pos).2 ∧
    (a, b) ∉ (draw_graph_edges g pos).1 ∧
    (b, a) ∉ (draw_graph_edges g pos).1 := by
  have hab : ((a, b) : α × α) ∈ g.edges := hsub.subset (by simp)
  have hba : ((b, a) : α × α) ∈ g.edges := hsub.subset (by simp)
  have hmemB : g.edgeMem (b, a) = true := (hdi _).mpr hba
  obtain ⟨hp, hl⟩ := draw_edges_loop_pair_mem g pos a b hne hmemB g.edges
    g.edges.toFinset hnd hsub (List.mem_toFinset.mpr hab) (List.mem_toFinset.mpr hba)
  exact ⟨draw_edges_loop_count_one g pos g.edges _ _ hab (List.mem_toFinset.mpr hab),
    draw_edges_loop_count_one g pos g.edges _ _ hba (List.mem_toFinset.mpr hba),
    hp, hl,
    draw_edges_loop_fst_not_mem g pos g.edges _ _ hab,
    draw_edges_loop_fst_not_mem g pos g.edges _ _ hba⟩

/-- Witness for C2 on the concrete directed graph `exG2`. -/
theorem c2_bidirectional_pair_styles_witness :
    drawCount (0, 1) (draw_graph_edges exG2 exPos).2 = 1 ∧
    drawCount (1, 0) (draw_graph_edges exG2 exPos).2 = 1 ∧
    DrawEvent.edgeDraw (0, 1) (weightOf exG2 (0, 1)) "pink" (2 / 10)
        ∈ (draw_graph_edges exG2 exPos).2 ∧
    DrawEvent.edgeDraw (1, 0) (weightOf exG2 (0, 1)) "lightblue" (1 / 10)
        ∈ (draw_graph_edges exG2 exPos).2 ∧
    (0, 1) ∉ (draw_graph_edges exG2 exPos).1 ∧
    (1, 0) ∉ (draw_graph_edges exG2 exPos).1 :=
  c2_bidirectional_pair_styles exG2 exPos 0 1 (by decide)
    (fun e => by simp [exG2]) (by decide) (List.Sublist.refl _)

/-- Claim C3: a self-loop edge `(a,a)` is drawn exactly once, exclusively via
the self-loop routine — receiving the node's position `pos a` and the edge's
weight-lookup entry as line width — never via the standard edge-drawing
path, and it is removed from the working set. -/
theorem c3_selfloop_via_selfloop_routine {α : Type} [DecidableEq α]
    (g : GraphModel α) (pos : α → ℚ × ℚ) (a : α) (h : (a, a) ∈ g.edges) :
    drawCount (a, a) (draw_graph_edges g pos).2 = 1 ∧
    (∀ ev ∈ (draw_graph_edges g pos).2, DrawEvent.edge ev = (a, a) →
        ev = DrawEvent.selfLoop (a, a) (pos a) (weightOf g (a, a))) ∧
    (a, a) ∉ (draw_graph_edges g pos).1 := by
  refine ⟨draw_edges_loop_count_one g pos g.edges _ _ h (List.mem_toFinset.mpr h),
    ?_, draw_edges_loop_fst_not_mem g pos g.edges _ _ h⟩
  intro ev hev heq
  have hform := draw_edges_loop_selfloop_form g pos g.edges g.edges.toFinset ev hev
    (by rw [heq])
  rw [heq] at hform
  exact hform

/-- Witness for C3 on the concrete graph `exG3` with the self-loop (7,7). -/
theorem c3_selfloop_via_selfloop_routine_witness :
    drawCount (7, 7) (draw_graph_edges exG3 exPos).2 = 1 ∧
    (∀ ev ∈ (draw_graph_edges exG3 exPos).2, DrawEvent.edge ev = (7, 7) →
        ev = DrawEvent.selfLoop (7, 7) (exPos 7) (weightOf exG3 (7, 7))) ∧
    (7, 7) ∉ (draw_graph_edges exG3 exPos).1 :=
  c3_selfloop_via_selfloop_routine exG3 exPos 7 (by decide)

/-- Claim C4: for every input graph, the edge-routing routine draws every
edge of the enumeration exactly once (reverse counterparts included), each
drawn edge is removed from the working set, and the working set is empty
when the routine terminates. -/
theorem c4_every_edge_drawn_once {α : Type} [DecidableEq α]
    (g : GraphModel α) (pos : α → ℚ × ℚ) :
    (draw_graph_edges g pos).1 = ∅ ∧
    ∀ e ∈ g.edges, drawCount e (draw_graph_edges g pos).2 = 1 := by
  constructor
  · refine Finset.eq_empty_iff_forall_not_mem.mpr (fun x hx => ?_)
    have hx1 : x ∈ g.edges.toFinset :=
      draw_edges_loop_fst_subset g pos g.edges g.edges.toFinset hx
    exact draw_edges_loop_fst_not_mem g pos g.edges g.edges.toFinset x
      (List.mem_toFinset.mp hx1) hx
  · intro e he
    exact draw_edges_loop_count_one g pos g.edges _ e he (List.mem_toFinset.mpr he)

/-- Witness for C4 on the concrete graph `exG4`. -/
theorem c4_every_edge_drawn_once_witness :
    (draw_graph_edges exG4 exPos).1 = ∅ ∧
    drawCount (2, 2) (draw_graph_edges exG4 exPos).2 = 1 :=
  ⟨(c4_every_edge_drawn_once exG4 exPos).1,
   (c4_every_edge_drawn_once exG4 exPos).2 (2, 2) (by decide)⟩

/-- Claim C9: in an undirected graph (edge membership accepts both
orientations, and the enumeration stores a single orientation per edge), the
reverse tuple `(b,a)` of an enumerated edge `(a,b)` with `a ≠ b` tests as
present in the edge set, yet the reverse-edge branch never fires: no draw
call is ever issued for `(b,a)`, and `(a,b)` is drawn exactly once, with
color "pink" and curvature radius 0.2. -/
theorem c9_undirected_single_draw {α : Type} [DecidableEq α]
    (g : GraphModel α) (pos : α → ℚ × ℚ) (a b : α)
    (hmem : ∀ e : α × α, g.edgeMem e = true ↔ (e ∈ g.edges ∨ (e.2, e.1) ∈ g.edges))
    (hrev : ∀ x y : α, (x, y) ∈ g.edges → (y, x) ∈ g.edges → x = y)
    (hab : (a, b) ∈ g.edges) (hne : a ≠ b) :
    g.edgeMem (b, a) = true ∧
    drawCount (a, b) (draw_graph_edges g pos).2 = 1 ∧
    (∀ ev ∈ (draw_graph_edges g pos).2, DrawEvent.edge ev = (a, b) →
        ev = DrawEvent.edgeDraw (a, b) (weightOf g (a, b)) "pink" (2 / 10)) ∧
    (∀ ev ∈ (draw_graph_edges g pos).2, DrawEvent.edge ev ≠ (b, a)) := by
  refine ⟨(hmem _).mpr (Or.inr hab), 
    draw_edges_loop_count_one g pos g.edges _ _ hab (List.mem_toFinset.mpr hab),
    ?_, ?_⟩
  · intro ev hev heq
    have hform := draw_edges_loop_undirected_form g pos hrev g.edges g.edges.toFinset
      (fun x hx => hx) (Finset.Subset.refl _) ev hev (by rw [heq]; exact hne)
    rw [heq] at hform
    exact hform
  · intro ev hev heq
    have hmem' := draw_edges_loop_event_edge_mem g pos g.edges g.edges.toFinset
      (fun x hx => hx) (Finset.Subset.refl _) ev hev
    rw [heq] at hmem'
    exact hne (hrev a b hab hmem')

/-- Witness for C9 on the concrete undirected graph `exG9`. -/
theorem c9_undirected_single_draw_witness :
    exG9.edgeMem (1, 0) = true ∧
    drawCount (0, 1) (draw_graph_edges exG9 exPos).2 = 1 ∧
    (∀ ev ∈ (draw_graph_edges exG9 exPos).2, DrawEvent.edge ev = (0, 1) →
        ev = DrawEvent.edgeDraw (0, 1) (weightOf exG9 (0, 1)) "pink" (2 / 10)) ∧
    (∀ ev ∈ (draw_graph_edges exG9 exPos).2, DrawEvent.edge ev ≠ (1, 0)) :=
  c9_undirected_single_draw exG9 exPos 0 1
    (fun e => by simp [exG9])
    (fun x y hx hy => by simp [exG9] at hx hy; omega)
    (by decide) (by decide)
